import Mathlib

/-!
# Perceptual hashes: a verification development for `perceptive`

A shallow embedding of `perceptive.go` (average hash, difference hash,
Hamming distance and the image comparator) together with proofs of its
contract.

## Modelling conventions

* `uint64` values are natural numbers below `2 ^ 64`; every `uint64`
  addition and shift of the source is wrapped by `u64` (reduction modulo
  `2 ^ 64`), and the proofs show that no wrap-around happens.
* `uint8` colour channels are `Fin 256`; the conversion `uint64(r)` is `r.val`.
* Go's `int` result of `HammingDistance` is an `Int` (it never exceeds 64).
* A nil-able `image.Image` is an `Option Image`, a nil-able `error` is an
  `Option Error`, and a Go result pair `(v, err)` is a Lean pair.
* The package `imaging` (grayscale conversion, Lanczos resizing) and pixel
  access are external to the repository.  They are the fields of `Imaging`.
  `imaging.Grayscale` and `imaging.Resize` return `*image.NRGBA`, whose `At`
  always yields a `color.NRGBA`, so the type assertion `.(color.NRGBA)` of the
  source cannot fail and `At` is modelled as a total function into `NRGBA`.
* `iter.N(n)` (external) enumerates `0, 1, ..., n - 1`; a `for ... range
  iter.N(n)` loop is a left fold over `List.range n`.
* The `for val != 0` loop of `HammingDistance` is modelled with fuel: one unit
  of fuel per executed loop body, `none` when the fuel runs out.  The theorems
  show that 64 units always suffice.
-/

namespace Perceptive

set_option maxRecDepth 100000

/-! ## Data model -/

/-- Reduction of a natural number to the `uint64` range. -/
def u64 (n : Nat) : Nat := n % 2 ^ 64

/-- The two error values of the package (`perceptive.go`, lines 13-16). -/
inductive Error where
  | ErrNilImage
  | ErrInvalidHash
  deriving DecidableEq

/-- The type `PerceptualHash` is a `uint8` (`perceptive.go`, line 19). -/
abbrev PerceptualHash := Nat

/-- Average hash (Ahash), value 0 of the `iota` block. -/
def Average : PerceptualHash := 0

/-- Difference hash (Dhash), value 1 of the `iota` block. -/
def Difference : PerceptualHash := 1

/-- The pixel type `color.NRGBA`: four 8-bit channels. -/
structure NRGBA where
  R : Fin 256
  G : Fin 256
  B : Fin 256
  A : Fin 256
  deriving DecidableEq

/-- The external image capability used by the package: `imaging.Grayscale`,
`imaging.Resize` with the Lanczos filter, and pixel access `At(x, y)` followed
by the type assertion to `color.NRGBA`. -/
structure Imaging (Image : Type) where
  Grayscale : Image → Image
  ResizeLanczos : Image → Nat → Nat → Image
  At : Image → Nat → Nat → NRGBA

/-! ## The functions of `perceptive.go` -/

/-- The function `grayscale` (lines 27-30). -/
def grayscale {Image : Type} (im : Imaging Image) (img : Image) : Image :=
  im.Grayscale img

/-- The function `resize` (lines 32-36). -/
def resize {Image : Type} (im : Imaging Image) (img : Image) (width height : Nat) : Image :=
  im.ResizeLanczos img width height

/-- The function `sumPixels` (lines 38-41): `uint64(r) + uint64(g) + uint64(b)`. -/
def sumPixels (r g b : Fin 256) : Nat :=
  u64 (u64 (r.val + g.val) + b.val)

/-- The constant `hashSize` of `Ahash` and `Dhash`. -/
def hashSize : Nat := 8

/-- First loop nest of `Ahash` (lines 55-61): the running `total`. -/
def ahashTotal (At : Nat → Nat → NRGBA) : Nat :=
  (List.range hashSize).foldl (fun total row =>
    (List.range hashSize).foldl (fun total col =>
      let pixelVal := At col row
      u64 (total + sumPixels pixelVal.R pixelVal.G pixelVal.B)) total) 0

/-- Second loop nest of `Ahash` (lines 65-77): the pair `(hash, pos)`. -/
def ahashScan (At : Nat → Nat → NRGBA) (avg : Nat) : Nat × Nat :=
  (List.range hashSize).foldl (fun st row =>
    (List.range hashSize).foldl (fun st col =>
      let pixelVal := At col row
      let sum := sumPixels pixelVal.R pixelVal.G pixelVal.B
      let hash := if sum > avg then st.1 ||| u64 (1 <<< st.2) else st.1
      (hash, u64 (st.2 + 1))) st) (0, 0)

/-- The function `Ahash` (lines 43-80). -/
def Ahash {Image : Type} (im : Imaging Image) (img : Option Image) : Nat × Option Error :=
  match img with
  | none => (0, some Error.ErrNilImage)
  | some img =>
    let pImg := grayscale im img
    let pImg := resize im pImg hashSize hashSize
    let total := ahashTotal (im.At pImg)
    let avg := total / (hashSize * hashSize)
    ((ahashScan (im.At pImg) avg).1, none)

/-- The closure `comparePixels` of `Dhash` (lines 93-102). -/
def comparePixels (px1 px2 : NRGBA) : Bool :=
  let x := sumPixels px1.R px1.G px1.B
  let y := sumPixels px2.R px2.G px2.B
  if x > y then true else false

/-- The loop nest of `Dhash` (lines 104-116): the pair `(hash, pos)`. -/
def dhashScan (At : Nat → Nat → NRGBA) : Nat × Nat :=
  (List.range hashSize).foldl (fun st row =>
    (List.range hashSize).foldl (fun st col =>
      let pixelLeft := At col row
      let pixelRight := At (col + 1) row
      let hash := if comparePixels pixelLeft pixelRight then st.1 ||| u64 (1 <<< st.2) else st.1
      (hash, u64 (st.2 + 1))) st) (0, 0)

/-- The function `Dhash` (lines 82-119). -/
def Dhash {Image : Type} (im : Imaging Image) (img : Option Image) : Nat × Option Error :=
  match img with
  | none => (0, some Error.ErrNilImage)
  | some img =>
    let pImg := grayscale im img
    let pImg := resize im pImg (hashSize + 1) hashSize
    ((dhashScan (im.At pImg)).1, none)

/-- The loop of `HammingDistance` (lines 125-128) on the state `(val, dist)`.
Each executed body costs one unit of fuel; `none` means the fuel ran out while
`val` was still non-zero.  `val - 1` is only evaluated for `val ≠ 0`, so the
`uint64` subtraction does not wrap. -/
def hammingLoop : Nat → Nat → Int → Option Int
  | 0, val, dist => if val ≠ 0 then none else some dist
  | fuel + 1, val, dist =>
    if val ≠ 0 then hammingLoop fuel (val &&& (val - 1)) (dist + 1) else some dist

/-- The function `HammingDistance` (lines 121-130). -/
def HammingDistance (fuel : Nat) (x y : Nat) : Option Int :=
  let dist := 0
  let val := x ^^^ y
  hammingLoop fuel val dist

/-- The tail of `CompareImages` (lines 158-162), reached from the two hashing
cases of the switch with the current values of `a`, `b` and `err`. -/
def compareFinish (fuel : Nat) (a b : Nat) (err : Option Error) : Option (Int × Option Error) :=
  match err with
  | some e => some (-1, some e)
  | none => (HammingDistance fuel a b).map (fun d => (d, none))

/-- The function `CompareImages` (lines 142-163).  In each hashing case the
second assignment to `err` replaces the value of the first one, as in the
source.  The outer `Option` is `none` only if `HammingDistance` runs out of
fuel. -/
def CompareImages {Image : Type} (im : Imaging Image) (fuel : Nat)
    (img1 img2 : Option Image) (hash : PerceptualHash) : Option (Int × Option Error) :=
  if hash = Average then
    let (a, err) := Ahash im img1
    let (b, err) := Ahash im img2
    compareFinish fuel a b err
  else if hash = Difference then
    let (a, err) := Dhash im img1
    let (b, err) := Dhash im img2
    compareFinish fuel a b err
  else
    some (-1, some Error.ErrInvalidHash)

/-! ## Specification-side definitions -/

/-- Number of set bits among the `w` lowest bit positions of `v`. -/
def bitCount (w v : Nat) : Nat :=
  (List.range w).countP (fun i => v.testBit i)

/-- Naive scan that tests each of the 64 bits of `v`. -/
def naiveBitScan (v : Nat) : Nat :=
  (List.range 64).countP (fun i => v.testBit i)

/-- Number of bit positions `i` in `0..63` at which `x` and `y` differ. -/
def differingBits (x y : Nat) : Nat :=
  (List.range 64).countP (fun i => x.testBit i != y.testBit i)

/-- Reduced value `R + G + B` of the pixel at `(col, row)` of the grid obtained
from `img` by grayscale conversion followed by resizing to `width × height`. -/
def reducedValue {Image : Type} (im : Imaging Image) (img : Image) (width height : Nat)
    (col row : Nat) : Nat :=
  let px := im.At (im.ResizeLanczos (im.Grayscale img) width height) col row
  px.R.val + px.G.val + px.B.val

/-- Average of the 64 reduced values of the 8×8 grid, by truncating division. -/
def floorAverage {Image : Type} (im : Imaging Image) (img : Image) : Nat :=
  (∑ row in Finset.range 8, ∑ col in Finset.range 8, reducedValue im img 8 8 col row) / 64

/-- One step of the bit-setting loops of `Ahash` and `Dhash`, with the
comparison abstracted as a predicate `q` on the row-major cell index: set bit
`pos` of `hash` when `q` holds, then advance `pos`.  Used to state the loop
invariant shared by both hashes. -/
def scanStep (q : Nat → Bool) (st : Nat × Nat) (i : Nat) : Nat × Nat :=
  (if q i then st.1 ||| u64 (1 <<< st.2) else st.1, u64 (st.2 + 1))

/-! ## Concrete instances used to exercise the theorems -/

/-- A test imaging capability on grids given as functions: grayscale and
resize leave the grid unchanged. -/
def gridImaging : Imaging (Nat → Nat → NRGBA) where
  Grayscale := fun g => g
  ResizeLanczos := fun g _ _ => g
  At := fun g col row => g col row

/-- A gray pixel of level `v` (taken modulo 256). -/
def gray (v : Nat) : NRGBA :=
  ⟨Fin.ofNat v, Fin.ofNat v, Fin.ofNat v, 255⟩

/-- A completely black grid. -/
def blackGrid : Nat → Nat → NRGBA := fun _ _ => gray 0

/-- A grid with a diagonal brightness ramp. -/
def rampGrid : Nat → Nat → NRGBA := fun col row => gray (10 * col + 20 * row)

/-- A grid whose brightness falls from left to right in even rows and rises in
odd rows. -/
def zigzagGrid : Nat → Nat → NRGBA :=
  fun col row => if row % 2 = 0 then gray (200 - 20 * col) else gray (20 * col)

/-- The 64-bit bitwise complement `^a` of a `uint64` value. -/
def complement64 (a : Nat) : Nat := 2 ^ 64 - 1 - a

/-- Reduced value `R + G + B` of the cell `(col, row)` of a pixel grid. -/
def cellValue (At : Nat → Nat → NRGBA) (col row : Nat) : Nat :=
  (At col row).R.val + (At col row).G.val + (At col row).B.val

/-- The diagonal ramp of `rampGrid`, five gray levels brighter. -/
def brightRampGrid : Nat → Nat → NRGBA := fun col row => gray (10 * col + 20 * row + 5)

/-- The grid `zigzagGrid`, fifteen gray levels brighter. -/
def brightZigzagGrid : Nat → Nat → NRGBA :=
  fun col row => if row % 2 = 0 then gray (200 - 20 * col + 15) else gray (20 * col + 15)


/-! ## Bit counting -/

theorem bitCount_zero_width (v : Nat) : bitCount 0 v = 0 := by
  simp [bitCount]

theorem bitCount_succ (w v : Nat) : bitCount (w + 1) v = v % 2 + bitCount w (v / 2) := by
  unfold bitCount
  rw [List.range_succ_eq_map, List.countP_cons, List.countP_map]
  have h : ((fun i => v.testBit i) ∘ Nat.succ) = (fun i => (v / 2).testBit i) := by
    funext i
    simp [Nat.testBit_succ]
  rw [h]
  rcases Nat.mod_two_eq_zero_or_one v with h0 | h1
  · simp [h0]
  · simp [h1]; omega

theorem bitCount_le (w v : Nat) : bitCount w v ≤ w := by
  unfold bitCount
  calc (List.range w).countP (fun i => v.testBit i) ≤ (List.range w).length := List.countP_le_length _
    _ = w := List.length_range w

theorem bitCount_zero (w : Nat) : bitCount w 0 = 0 := by
  induction w with
  | zero => exact bitCount_zero_width 0
  | succ w ih => rw [bitCount_succ]; simpa using ih

/-- Clearing the lowest set bit: halving commutes with `v &&& (v - 1)`. -/
theorem clear_lowest_even (n : Nat) :
    (2 * n) &&& (2 * n - 1) = 2 * (n &&& (n - 1)) := by
  apply Nat.eq_of_testBit_eq
  intro i
  cases i with
  | zero => simp [Nat.testBit_zero]
  | succ i =>
    have h1 : (2 * n - 1) / 2 = n - 1 := by omega
    have h2 : (2 * n) / 2 = n := by omega
    have h3 : (2 * (n &&& (n - 1))) / 2 = n &&& (n - 1) := by omega
    simp only [Nat.testBit_succ, Nat.and_div_two, Nat.testBit_and, h1, h2, h3]

theorem clear_lowest_odd (n : Nat) :
    (2 * n + 1) &&& (2 * n + 1 - 1) = 2 * n := by
  apply Nat.eq_of_testBit_eq
  intro i
  cases i with
  | zero => simp [Nat.testBit_zero]
  | succ i =>
    have h1 : (2 * n + 1 - 1) / 2 = n := by omega
    have h2 : (2 * n + 1) / 2 = n := by omega
    have h3 : (2 * n) / 2 = n := by omega
    simp only [Nat.testBit_succ, Nat.and_div_two, Nat.testBit_and, h1, h2, h3, Bool.and_self]

theorem bitCount_clear_lowest (w : Nat) :
    ∀ v : Nat, v ≠ 0 → v < 2 ^ w → bitCount w (v &&& (v - 1)) + 1 = bitCount w v := by
  induction w with
  | zero => intro v h0 hlt; simp at hlt; omega
  | succ w ih =>
    intro v h0 hlt
    rcases Nat.mod_two_eq_zero_or_one v with hp | hp
    · obtain ⟨n, rfl⟩ : ∃ n, v = 2 * n := ⟨v / 2, by omega⟩
      have hn : n ≠ 0 := by omega
      have hlt2 : n < 2 ^ w := by rw [pow_succ] at hlt; omega
      rw [clear_lowest_even n, bitCount_succ, bitCount_succ]
      have := ih n hn hlt2
      have e1 : 2 * (n &&& (n - 1)) / 2 = n &&& (n - 1) := by omega
      have e2 : 2 * n / 2 = n := by omega
      rw [e1, e2]
      omega
    · obtain ⟨n, rfl⟩ : ∃ n, v = 2 * n + 1 := ⟨v / 2, by omega⟩
      rw [clear_lowest_odd n, bitCount_succ, bitCount_succ]
      have e1 : (2 * n + 1) / 2 = n := by omega
      have e2 : 2 * n / 2 = n := by omega
      rw [e1, e2]
      omega

theorem bitCount_pos (w v : Nat) (h0 : v ≠ 0) (hlt : v < 2 ^ w) : 0 < bitCount w v := by
  have := bitCount_clear_lowest w v h0 hlt
  omega

/-- The loop of `HammingDistance` adds the number of set bits of `val` to
`dist`, as soon as the fuel covers that number of iterations. -/
theorem hammingLoop_eq (w : Nat) :
    ∀ (fuel val : Nat) (dist : Int), val < 2 ^ w → bitCount w val ≤ fuel →
      hammingLoop fuel val dist = some (dist + (bitCount w val : Int)) := by
  intro fuel
  induction fuel with
  | zero =>
    intro val dist hlt hf
    have hv : val = 0 := by
      by_contra h0
      have := bitCount_pos w val h0 hlt
      omega
    subst hv
    simp [hammingLoop, bitCount_zero]
  | succ fuel ih =>
    intro val dist hlt hf
    by_cases h0 : val = 0
    · subst h0
      simp [hammingLoop, bitCount_zero]
    · have hstep := bitCount_clear_lowest w val h0 hlt
      have hle : val &&& (val - 1) ≤ val := Nat.and_le_left
      have hlt2 : val &&& (val - 1) < 2 ^ w := lt_of_le_of_lt hle hlt
      have hf2 : bitCount w (val &&& (val - 1)) ≤ fuel := by omega
      rw [hammingLoop, if_pos h0, ih _ _ hlt2 hf2]
      congr 1
      have : (bitCount w val : Int) = (bitCount w (val &&& (val - 1)) : Int) + 1 := by
        exact_mod_cast hstep.symm
      omega

theorem differingBits_eq (x y : Nat) : differingBits x y = bitCount 64 (x ^^^ y) := by
  unfold differingBits bitCount
  congr 1
  funext i
  simp [Nat.testBit_xor]

theorem naiveBitScan_eq (v : Nat) : naiveBitScan v = bitCount 64 v := rfl

theorem HammingDistance_eq (fuel x y : Nat) (hx : x < 2 ^ 64) (hy : y < 2 ^ 64)
    (hfuel : 64 ≤ fuel) :
    HammingDistance fuel x y = some (bitCount 64 (x ^^^ y) : Int) := by
  have hlt : x ^^^ y < 2 ^ 64 := Nat.xor_lt_two_pow hx hy
  have hle := bitCount_le 64 (x ^^^ y)
  unfold HammingDistance
  simp only []
  rw [hammingLoop_eq 64 fuel (x ^^^ y) 0 hlt (by omega)]
  simp


/-! ## The pixel reducer and the accumulation loops -/

theorem sumPixels_eq (r g b : Fin 256) : sumPixels r g b = r.val + g.val + b.val := by
  have hr := r.isLt
  have hg := g.isLt
  have hb := b.isLt
  unfold sumPixels u64
  rw [Nat.mod_eq_of_lt (by omega), Nat.mod_eq_of_lt (by omega)]

theorem sumPixels_le (r g b : Fin 256) : sumPixels r g b ≤ 765 := by
  have hr := r.isLt
  have hg := g.isLt
  have hb := b.isLt
  rw [sumPixels_eq]
  omega

/-- Nested loops over `iter.N(8)` visit the 64 cells in row-major order. -/
theorem foldl_flatten {σ : Type} (f : σ → Nat → Nat → σ) (s : σ) :
    (List.range 8).foldl (fun st row => (List.range 8).foldl (fun st col => f st row col) st) s
      = (List.range 64).foldl (fun st i => f st (i / 8) (i % 8)) s := by
  rfl

/-- An accumulation loop whose step adds a bounded amount never leaves the
range below `M` and computes the plain sum. -/
theorem foldl_accumulate (step : Nat → Nat → Nat) (f : Nat → Nat) (B M : Nat)
    (hstep : ∀ t i, t + B < M → step t i = t + f i) (hf : ∀ i, f i ≤ B) :
    ∀ (n t0 : Nat), t0 + B * n < M →
      (List.range n).foldl step t0 = t0 + ∑ i in Finset.range n, f i := by
  intro n
  induction n with
  | zero => intro t0 _; simp
  | succ n ih =>
    intro t0 h
    have hB : B * (n + 1) = B * n + B := by ring
    have h1 : t0 + B * n < M := by omega
    have hsum : ∑ i in Finset.range n, f i ≤ B * n := by
      calc ∑ i in Finset.range n, f i ≤ ∑ _i in Finset.range n, B :=
            Finset.sum_le_sum (fun i _ => hf i)
        _ = B * n := by simp [mul_comm]
    rw [List.range_succ, List.foldl_append, ih t0 h1]
    simp only [List.foldl_cons, List.foldl_nil]
    rw [hstep _ _ (by omega), Finset.sum_range_succ]
    omega

theorem u64_of_lt (n : Nat) (h : n < 2 ^ 64) : u64 n = n := Nat.mod_eq_of_lt h

theorem ahashTotal_eq (At : Nat → Nat → NRGBA) :
    ahashTotal At = ∑ row in Finset.range 8, ∑ col in Finset.range 8,
      ((At col row).R.val + (At col row).G.val + (At col row).B.val) := by
  unfold ahashTotal hashSize
  have inner : ∀ row t, t + 6120 < 2 ^ 64 →
      (List.range 8).foldl (fun total col =>
        u64 (total + sumPixels (At col row).R (At col row).G (At col row).B)) t
        = t + ∑ col in Finset.range 8,
            ((At col row).R.val + (At col row).G.val + (At col row).B.val) := by
    intro row t ht
    apply foldl_accumulate _ _ 765 (2 ^ 64)
    · intro t' i ht'
      have := sumPixels_le (At i row).R (At i row).G (At i row).B
      rw [u64_of_lt _ (by omega), sumPixels_eq]
    · intro i
      have := sumPixels_le (At i row).R (At i row).G (At i row).B
      rw [sumPixels_eq] at this
      exact this
    · omega
  have outer := foldl_accumulate
    (fun total row => (List.range 8).foldl (fun total col =>
        u64 (total + sumPixels (At col row).R (At col row).G (At col row).B)) total)
    (fun row => ∑ col in Finset.range 8,
      ((At col row).R.val + (At col row).G.val + (At col row).B.val))
    6120 (2 ^ 64)
    (fun t row ht => inner row t ht)
    (fun row => by
      calc ∑ col in Finset.range 8,
            ((At col row).R.val + (At col row).G.val + (At col row).B.val)
          ≤ ∑ _col in Finset.range 8, 765 := Finset.sum_le_sum (fun col _ => by
            have := sumPixels_le (At col row).R (At col row).G (At col row).B
            rw [sumPixels_eq] at this
            exact this)
        _ = 6120 := by simp)
    8 0 (by norm_num)
  simpa using outer

/-! ## The bit-setting loops -/

theorem scan_invariant (q : Nat → Bool) :
    ∀ n, n ≤ 64 →
      ((List.range n).foldl (scanStep q) (0, 0)).2 = n ∧
      ((List.range n).foldl (scanStep q) (0, 0)).1 < 2 ^ n ∧
      ∀ i, ((List.range n).foldl (scanStep q) (0, 0)).1.testBit i = (decide (i < n) && q i) := by
  intro n
  induction n with
  | zero => intro _; simp
  | succ n ih =>
    intro hn
    obtain ⟨hpos, hlt, hbits⟩ := ih (by omega)
    rw [List.range_succ, List.foldl_append]
    simp only [List.foldl_cons, List.foldl_nil]
    generalize (List.range n).foldl (scanStep q) (0, 0) = st at hpos hlt hbits
    obtain ⟨hash, pos⟩ := st
    simp only at hpos hlt hbits
    subst hpos
    have hpow : (2 : Nat) ^ pos < 2 ^ 64 := Nat.pow_lt_pow_right (by norm_num) (by omega)
    have hshift : u64 (1 <<< pos) = 2 ^ pos := by
      rw [Nat.one_shiftLeft, u64_of_lt _ hpow]
    have hsucc : u64 (pos + 1) = pos + 1 := u64_of_lt _ (by
      have : (64 : Nat) < 2 ^ 64 := by norm_num
      omega)
    have hmono : (2 : Nat) ^ pos < 2 ^ (pos + 1) := Nat.pow_lt_pow_right (by norm_num) (by omega)
    unfold scanStep
    simp only [hshift, hsucc]
    refine ⟨trivial, ?_, ?_⟩
    · split
      · exact Nat.or_lt_two_pow (lt_trans hlt hmono) hmono
      · exact lt_trans hlt hmono
    · intro i
      by_cases hq : q pos = true
      · simp only [hq, if_true, Nat.testBit_or, hbits, Nat.testBit_two_pow]
        by_cases hi : i = pos
        · subst hi; simp [hq]
        · have : ¬ pos = i := fun h => hi h.symm
          by_cases hlt' : i < pos
          · have : i < pos + 1 := by omega
            simp [*]
          · have : ¬ i < pos + 1 := by omega
            simp [*]
      · simp only [hq, hbits]
        by_cases hi : i = pos
        · subst hi; simp [hq, hbits]
        · by_cases hlt' : i < pos
          · have : i < pos + 1 := by omega
            simp [*]
          · have : ¬ i < pos + 1 := by omega
            simp [*]

theorem ahashScan_eq (At : Nat → Nat → NRGBA) (avg : Nat) :
    ahashScan At avg = (List.range 64).foldl
      (scanStep (fun i => decide (sumPixels (At (i % 8) (i / 8)).R (At (i % 8) (i / 8)).G
        (At (i % 8) (i / 8)).B > avg))) (0, 0) := by
  unfold ahashScan hashSize
  rw [foldl_flatten (fun st row col =>
      ((if sumPixels (At col row).R (At col row).G (At col row).B > avg
          then st.1 ||| u64 (1 <<< st.2) else st.1), u64 (st.2 + 1)))]
  congr 1
  funext st i
  simp [scanStep]

theorem dhashScan_eq (At : Nat → Nat → NRGBA) :
    dhashScan At = (List.range 64).foldl
      (scanStep (fun i => comparePixels (At (i % 8) (i / 8)) (At (i % 8 + 1) (i / 8)))) (0, 0) := by
  unfold dhashScan hashSize
  rw [foldl_flatten (fun st row col =>
      ((if comparePixels (At col row) (At (col + 1) row) = true
          then st.1 ||| u64 (1 <<< st.2) else st.1), u64 (st.2 + 1)))]
  rfl

theorem cell_index (row col : Nat) (hcol : col < 8) :
    (row * 8 + col) % 8 = col ∧ (row * 8 + col) / 8 = row := by
  constructor <;> omega

theorem ahashScan_lt (At : Nat → Nat → NRGBA) (avg : Nat) : (ahashScan At avg).1 < 2 ^ 64 := by
  rw [ahashScan_eq]
  exact (scan_invariant _ 64 (le_refl _)).2.1

theorem dhashScan_lt (At : Nat → Nat → NRGBA) : (dhashScan At).1 < 2 ^ 64 := by
  rw [dhashScan_eq]
  exact (scan_invariant _ 64 (le_refl _)).2.1

theorem ahashScan_testBit (At : Nat → Nat → NRGBA) (avg row col : Nat)
    (hrow : row < 8) (hcol : col < 8) :
    (ahashScan At avg).1.testBit (row * 8 + col) = true ↔
      avg < (At col row).R.val + (At col row).G.val + (At col row).B.val := by
  rw [ahashScan_eq, (scan_invariant _ 64 (le_refl _)).2.2]
  obtain ⟨h1, h2⟩ := cell_index row col hcol
  have hlt : row * 8 + col < 64 := by omega
  simp only [h1, h2, sumPixels_eq]
  simp [hlt]

theorem dhashScan_testBit (At : Nat → Nat → NRGBA) (row col : Nat)
    (hrow : row < 8) (hcol : col < 8) :
    (dhashScan At).1.testBit (row * 8 + col) = true ↔
      (At (col + 1) row).R.val + (At (col + 1) row).G.val + (At (col + 1) row).B.val
        < (At col row).R.val + (At col row).G.val + (At col row).B.val := by
  rw [dhashScan_eq, (scan_invariant _ 64 (le_refl _)).2.2]
  obtain ⟨h1, h2⟩ := cell_index row col hcol
  have hlt : row * 8 + col < 64 := by omega
  simp only [h1, h2, comparePixels, sumPixels_eq]
  simp [hlt]


/-! ## Facts about the hash functions and the comparator -/

theorem Ahash_some {Image : Type} (im : Imaging Image) (img : Image) :
    Ahash im (some img) =
      ((ahashScan (im.At (im.ResizeLanczos (im.Grayscale img) 8 8))
        (ahashTotal (im.At (im.ResizeLanczos (im.Grayscale img) 8 8)) / 64)).1, none) := rfl

theorem Dhash_some {Image : Type} (im : Imaging Image) (img : Image) :
    Dhash im (some img) =
      ((dhashScan (im.At (im.ResizeLanczos (im.Grayscale img) 9 8))).1, none) := rfl

theorem Ahash_lt {Image : Type} (im : Imaging Image) (img : Option Image) :
    (Ahash im img).1 < 2 ^ 64 := by
  cases img with
  | none => exact Nat.two_pow_pos 64
  | some img => rw [Ahash_some]; simp only []; exact ahashScan_lt _ _

theorem Dhash_lt {Image : Type} (im : Imaging Image) (img : Option Image) :
    (Dhash im img).1 < 2 ^ 64 := by
  cases img with
  | none => exact Nat.two_pow_pos 64
  | some img => rw [Dhash_some]; simp only []; exact dhashScan_lt _

theorem compareFinish_none (fuel a b : Nat) (ha : a < 2 ^ 64) (hb : b < 2 ^ 64)
    (hfuel : 64 ≤ fuel) :
    compareFinish fuel a b none = some ((bitCount 64 (a ^^^ b) : Int), none) := by
  simp [compareFinish, HammingDistance_eq fuel a b ha hb hfuel]

theorem CompareImages_Average {Image : Type} (im : Imaging Image) (fuel : Nat)
    (img1 img2 : Option Image) :
    CompareImages im fuel img1 img2 Average =
      compareFinish fuel (Ahash im img1).1 (Ahash im img2).1 (Ahash im img2).2 := by
  simp [CompareImages]

theorem CompareImages_Difference {Image : Type} (im : Imaging Image) (fuel : Nat)
    (img1 img2 : Option Image) :
    CompareImages im fuel img1 img2 Difference =
      compareFinish fuel (Dhash im img1).1 (Dhash im img2).1 (Dhash im img2).2 := by
  simp [CompareImages, Average, Difference]

theorem CompareImages_invalid {Image : Type} (im : Imaging Image) (fuel : Nat)
    (img1 img2 : Option Image) (hash : PerceptualHash)
    (h0 : hash ≠ Average) (h1 : hash ≠ Difference) :
    CompareImages im fuel img1 img2 hash = some (-1, some Error.ErrInvalidHash) := by
  simp [CompareImages, h0, h1]

/-- When the first image is nil and the second is not, the error of the first
hashing call is replaced by the nil error of the second call. -/
theorem CompareImages_first_nil_lost {Image : Type} (im : Imaging Image) (fuel : Nat)
    (img2 : Image) (hfuel : 64 ≤ fuel) :
    CompareImages im fuel none (some img2) Average =
        some ((bitCount 64 (0 ^^^ (Ahash im (some img2)).1) : Int), none) ∧
    CompareImages im fuel none (some img2) Difference =
        some ((bitCount 64 (0 ^^^ (Dhash im (some img2)).1) : Int), none) := by
  constructor
  · rw [CompareImages_Average]
    exact compareFinish_none fuel _ _ (Ahash_lt im none) (Ahash_lt im _) hfuel
  · rw [CompareImages_Difference]
    exact compareFinish_none fuel _ _ (Dhash_lt im none) (Dhash_lt im _) hfuel

/-! ## The claims -/

/-- C1: for 64-bit unsigned `x` and `y`, `HammingDistance x y` returns the
number of bit positions `0..63` at which `x` and `y` differ, which is the
result of the naive scan over the 64 bits of `x XOR y`. -/
theorem HammingDistance_counts_differing_bits (fuel x y : Nat)
    (hx : x < 2 ^ 64) (hy : y < 2 ^ 64) (hfuel : 64 ≤ fuel) :
    HammingDistance fuel x y = some (differingBits x y : Int) ∧
      differingBits x y = naiveBitScan (x ^^^ y) := by
  refine ⟨?_, ?_⟩
  · rw [differingBits_eq]; exact HammingDistance_eq fuel x y hx hy hfuel
  · rw [differingBits_eq, naiveBitScan_eq]

/-- Witness for C1: the three reference vectors of the test suite. -/
theorem HammingDistance_counts_differing_bits_witness :
    HammingDistance 64 171798691 536870911 = some 15 ∧
    HammingDistance 64 6 21 = some 3 ∧
    HammingDistance 64 13280149282866979154 17352528693468127320 = some 18 := by
  have h1 := (HammingDistance_counts_differing_bits 64 171798691 536870911
    (by decide) (by decide) (by decide)).1
  have h2 := (HammingDistance_counts_differing_bits 64 6 21
    (by decide) (by decide) (by decide)).1
  have h3 := (HammingDistance_counts_differing_bits 64 13280149282866979154
    17352528693468127320 (by decide) (by decide) (by decide)).1
  have e1 : differingBits 171798691 536870911 = 15 := by decide
  have e2 : differingBits 6 21 = 3 := by decide
  have e3 : differingBits 13280149282866979154 17352528693468127320 = 18 := by decide
  rw [e1] at h1
  rw [e2] at h2
  rw [e3] at h3
  exact ⟨h1, h2, h3⟩

/-- C2: for a non-nil image, `Ahash` returns a nil error and a 64-bit value
whose bit `row * 8 + col` is 1 exactly when the reduced value `R + G + B` of
cell `(col, row)` of the grayscale 8×8 grid is strictly greater than the
truncated average of the 64 reduced values. -/
theorem Ahash_bit_iff_above_average {Image : Type} (im : Imaging Image) (img : Image)
    (row col : Nat) (hrow : row < 8) (hcol : col < 8) :
    (Ahash im (some img)).2 = none ∧
    (Ahash im (some img)).1 < 2 ^ 64 ∧
    ((Ahash im (some img)).1.testBit (row * 8 + col) = true ↔
      floorAverage im img < reducedValue im img 8 8 col row) := by
  refine ⟨rfl, Ahash_lt im _, ?_⟩
  rw [Ahash_some]
  simp only []
  rw [ahashScan_testBit _ _ row col hrow hcol, ahashTotal_eq]
  rfl

/-- Witness for C2: the diagonal ramp, cell `(col, row) = (2, 1)`. -/
theorem Ahash_bit_iff_above_average_witness :
    (1 : Nat) < 8 ∧ (2 : Nat) < 8 ∧
    (Ahash gridImaging (some rampGrid)).2 = none ∧
    (Ahash gridImaging (some rampGrid)).1 < 2 ^ 64 ∧
    ((Ahash gridImaging (some rampGrid)).1.testBit (1 * 8 + 2) = true ↔
      floorAverage gridImaging rampGrid < reducedValue gridImaging rampGrid 8 8 2 1) :=
  ⟨by decide, by decide,
    Ahash_bit_iff_above_average gridImaging rampGrid 1 2 (by decide) (by decide)⟩

/-- C3: for a non-nil image, `Dhash` returns a nil error and a 64-bit value
whose bit `row * 8 + col` is 1 exactly when the reduced value of cell
`(col, row)` of the grayscale 9×8 grid is strictly greater than the reduced
value of its right neighbour `(col + 1, row)`. -/
theorem Dhash_bit_iff_left_greater {Image : Type} (im : Imaging Image) (img : Image)
    (row col : Nat) (hrow : row < 8) (hcol : col < 8) :
    (Dhash im (some img)).2 = none ∧
    (Dhash im (some img)).1 < 2 ^ 64 ∧
    ((Dhash im (some img)).1.testBit (row * 8 + col) = true ↔
      reducedValue im img 9 8 (col + 1) row < reducedValue im img 9 8 col row) := by
  refine ⟨rfl, Dhash_lt im _, ?_⟩
  rw [Dhash_some]
  simp only []
  rw [dhashScan_testBit _ row col hrow hcol]
  rfl

/-- Witness for C3: the zigzag grid, cell `(col, row) = (3, 2)`. -/
theorem Dhash_bit_iff_left_greater_witness :
    (2 : Nat) < 8 ∧ (3 : Nat) < 8 ∧
    (Dhash gridImaging (some zigzagGrid)).2 = none ∧
    (Dhash gridImaging (some zigzagGrid)).1 < 2 ^ 64 ∧
    ((Dhash gridImaging (some zigzagGrid)).1.testBit (2 * 8 + 3) = true ↔
      reducedValue gridImaging zigzagGrid 9 8 (3 + 1) 2
        < reducedValue gridImaging zigzagGrid 9 8 3 2) :=
  ⟨by decide, by decide,
    Dhash_bit_iff_left_greater gridImaging zigzagGrid 2 3 (by decide) (by decide)⟩

/-- C4: for two non-nil images, `CompareImages` with `Average` returns the
Hamming distance of the two `Ahash` values with a nil error, and with
`Difference` the Hamming distance of the two `Dhash` values with a nil error. -/
theorem CompareImages_non_nil {Image : Type} (im : Imaging Image) (fuel : Nat)
    (img1 img2 : Image) (hfuel : 64 ≤ fuel) :
    (∃ d : Int,
      HammingDistance fuel (Ahash im (some img1)).1 (Ahash im (some img2)).1 = some d ∧
      CompareImages im fuel (some img1) (some img2) Average = some (d, none)) ∧
    (∃ d : Int,
      HammingDistance fuel (Dhash im (some img1)).1 (Dhash im (some img2)).1 = some d ∧
      CompareImages im fuel (some img1) (some img2) Difference = some (d, none)) := by
  constructor
  · refine ⟨_, HammingDistance_eq fuel _ _ (Ahash_lt im _) (Ahash_lt im _) hfuel, ?_⟩
    rw [CompareImages_Average]
    exact compareFinish_none fuel _ _ (Ahash_lt im _) (Ahash_lt im _) hfuel
  · refine ⟨_, HammingDistance_eq fuel _ _ (Dhash_lt im _) (Dhash_lt im _) hfuel, ?_⟩
    rw [CompareImages_Difference]
    exact compareFinish_none fuel _ _ (Dhash_lt im _) (Dhash_lt im _) hfuel

/-- Witness for C4: the ramp against the zigzag grid, distances 34 and 32. -/
theorem CompareImages_non_nil_witness :
    CompareImages gridImaging 64 (some rampGrid) (some zigzagGrid) Average = some (34, none) ∧
    CompareImages gridImaging 64 (some rampGrid) (some zigzagGrid) Difference
      = some (32, none) := by
  obtain ⟨⟨d1, h1, c1⟩, ⟨d2, h2, c2⟩⟩ :=
    CompareImages_non_nil gridImaging 64 rampGrid zigzagGrid (by decide)
  have e1 : HammingDistance 64 (Ahash gridImaging (some rampGrid)).1
      (Ahash gridImaging (some zigzagGrid)).1 = some 34 := by decide
  have e2 : HammingDistance 64 (Dhash gridImaging (some rampGrid)).1
      (Dhash gridImaging (some zigzagGrid)).1 = some 32 := by decide
  rw [e1] at h1
  rw [e2] at h2
  cases h1
  cases h2
  exact ⟨c1, c2⟩


/-- C5 (evaluation of the code): with a nil first image and a non-nil second
image, `CompareImages` does not return `(-1, ErrNilImage)`.  For the black
grid it returns distance 0 with a nil error under `Average` and under
`Difference`, while the second-image case `CompareImages img nil` does
report `ErrNilImage`. -/
theorem CompareImages_first_nil_error_overwritten :
    CompareImages gridImaging 64 none (some blackGrid) Average = some (0, none) ∧
    CompareImages gridImaging 64 none (some blackGrid) Difference = some (0, none) ∧
    CompareImages gridImaging 64 none (some rampGrid) Average = some (32, none) ∧
    CompareImages gridImaging 64 (some blackGrid) none Average
      = some (-1, some Error.ErrNilImage) := by
  decide

/-- C6: for `Average` and `Difference` and any first image, a nil second image
makes `CompareImages` return `-1` together with `ErrNilImage`. -/
theorem CompareImages_second_nil {Image : Type} (im : Imaging Image) (fuel : Nat)
    (img1 : Option Image) (hash : PerceptualHash)
    (hkind : hash = Average ∨ hash = Difference) :
    CompareImages im fuel img1 none hash = some (-1, some Error.ErrNilImage) := by
  rcases hkind with h | h
  · subst h
    rw [CompareImages_Average]
    rfl
  · subst h
    rw [CompareImages_Difference]
    rfl

/-- Witness for C6: a non-nil first image under `Difference`. -/
theorem CompareImages_second_nil_witness :
    (Difference = Average ∨ Difference = Difference) ∧
    CompareImages gridImaging 64 (some rampGrid) none Difference
      = some (-1, some Error.ErrNilImage) :=
  ⟨Or.inr rfl, CompareImages_second_nil gridImaging 64 (some rampGrid) Difference (Or.inr rfl)⟩

/-- C7: for every `PerceptualHash` value other than `Average` and `Difference`
and every pair of images, nil or not, `CompareImages` returns `-1` together
with `ErrInvalidHash`, whatever the imaging capability and the fuel. -/
theorem CompareImages_invalid_hash {Image : Type} (im : Imaging Image) (fuel : Nat)
    (img1 img2 : Option Image) (hash : PerceptualHash)
    (h0 : hash ≠ Average) (h1 : hash ≠ Difference) :
    CompareImages im fuel img1 img2 hash = some (-1, some Error.ErrInvalidHash) :=
  CompareImages_invalid im fuel img1 img2 hash h0 h1

/-- Witness for C7: kind 2 with two nil images and no fuel at all. -/
theorem CompareImages_invalid_hash_witness :
    (2 : PerceptualHash) ≠ Average ∧ (2 : PerceptualHash) ≠ Difference ∧
    CompareImages gridImaging 0 none none 2 = some (-1, some Error.ErrInvalidHash) :=
  ⟨by decide, by decide,
    CompareImages_invalid_hash gridImaging 0 none none 2 (by decide) (by decide)⟩

/-- C8: `Ahash nil` and `Dhash nil` return the value 0 with `ErrNilImage`;
for a non-nil image both return a nil error; each reports `ErrNilImage`
exactly when its argument is nil. -/
theorem hash_fails_iff_nil {Image : Type} (im : Imaging Image) (img : Option Image) :
    Ahash im none = (0, some Error.ErrNilImage) ∧
    Dhash im none = (0, some Error.ErrNilImage) ∧
    ((Ahash im img).2 = some Error.ErrNilImage ↔ img = none) ∧
    ((Dhash im img).2 = some Error.ErrNilImage ↔ img = none) ∧
    ((Ahash im img).2 = none ↔ img.isSome = true) ∧
    ((Dhash im img).2 = none ↔ img.isSome = true) := by
  refine ⟨rfl, rfl, ?_, ?_, ?_, ?_⟩ <;> cases img <;> simp [Ahash, Dhash]

/-- C9: for all inputs `CompareImages` returns a pair; its error is non-nil
exactly when the distance is `-1`, and when the error is nil the distance lies
in `0..64`. -/
theorem CompareImages_error_iff_sentinel {Image : Type} (im : Imaging Image) (fuel : Nat)
    (img1 img2 : Option Image) (hash : PerceptualHash) (hfuel : 64 ≤ fuel) :
    ∃ (d : Int) (err : Option Error),
      CompareImages im fuel img1 img2 hash = some (d, err) ∧
      (err.isSome = true ↔ d = -1) ∧
      (err = none → 0 ≤ d ∧ d ≤ 64) := by
  have key : ∀ (a b : Nat) (err : Option Error), a < 2 ^ 64 → b < 2 ^ 64 →
      ∃ (d : Int) (e : Option Error), compareFinish fuel a b err = some (d, e) ∧
        (e.isSome = true ↔ d = -1) ∧ (e = none → 0 ≤ d ∧ d ≤ 64) := by
    intro a b err ha hb
    cases err with
    | some e => exact ⟨-1, some e, rfl, by simp, by simp⟩
    | none =>
      have hle := bitCount_le 64 (a ^^^ b)
      refine ⟨_, none, compareFinish_none fuel a b ha hb hfuel, ?_, ?_⟩
      · constructor
        · intro h; simp at h
        · intro h; omega
      · intro _; omega
  by_cases h0 : hash = Average
  · subst h0
    rw [CompareImages_Average]
    exact key _ _ _ (Ahash_lt im _) (Ahash_lt im _)
  · by_cases h1 : hash = Difference
    · subst h1
      rw [CompareImages_Difference]
      exact key _ _ _ (Dhash_lt im _) (Dhash_lt im _)
    · exact ⟨-1, some Error.ErrInvalidHash, CompareImages_invalid im fuel img1 img2 hash h0 h1,
        by simp, by simp⟩

/-- Witness for C9: a nil first image against the ramp grid under `Average`,
the case in which the comparator reports no error. -/
theorem CompareImages_error_iff_sentinel_witness :
    ∃ (d : Int) (err : Option Error),
      CompareImages gridImaging 64 none (some rampGrid) Average = some (d, err) ∧
      (err.isSome = true ↔ d = -1) ∧
      (err = none → 0 ≤ d ∧ d ≤ 64) :=
  CompareImages_error_iff_sentinel gridImaging 64 none (some rampGrid) Average (by decide)

/-- C10: `HammingDistance` is symmetric on 64-bit unsigned integers: both
calls return, and they return the same distance. -/
theorem HammingDistance_symmetric (fuel a b : Nat)
    (ha : a < 2 ^ 64) (hb : b < 2 ^ 64) (hfuel : 64 ≤ fuel) :
    HammingDistance fuel a b = HammingDistance fuel b a ∧
      (HammingDistance fuel a b).isSome = true := by
  refine ⟨?_, ?_⟩
  · unfold HammingDistance
    rw [Nat.xor_comm]
  · rw [HammingDistance_eq fuel a b ha hb hfuel]
    rfl

/-- Witness for C10: the pair `(6, 21)`. -/
theorem HammingDistance_symmetric_witness :
    (6 : Nat) < 2 ^ 64 ∧ (21 : Nat) < 2 ^ 64 ∧ 64 ≤ 64 ∧
    HammingDistance 64 6 21 = HammingDistance 64 21 6 ∧
      (HammingDistance 64 6 21).isSome = true :=
  ⟨by decide, by decide, by decide,
    HammingDistance_symmetric 64 6 21 (by decide) (by decide) (by decide)⟩


/-! ## Further facts about the Hamming loop -/

/-- With fewer units of fuel than set bits the loop does not finish. -/
theorem hammingLoop_none (w : Nat) :
    ∀ (fuel val : Nat) (dist : Int), val < 2 ^ w → fuel < bitCount w val →
      hammingLoop fuel val dist = none := by
  intro fuel
  induction fuel with
  | zero =>
    intro val dist _ hf
    have h0 : val ≠ 0 := by
      intro h
      rw [h, bitCount_zero] at hf
      omega
    simp [hammingLoop, h0]
  | succ fuel ih =>
    intro val dist hlt hf
    have h0 : val ≠ 0 := by
      intro h
      rw [h, bitCount_zero] at hf
      omega
    have hstep := bitCount_clear_lowest w val h0 hlt
    have hle : val &&& (val - 1) ≤ val := Nat.and_le_left
    rw [hammingLoop, if_pos h0]
    exact ih _ _ (lt_of_le_of_lt hle hlt) (by omega)

theorem clear_lowest_lt (val : Nat) (h0 : val ≠ 0) : val &&& (val - 1) < val := by
  have h : val &&& (val - 1) ≤ val - 1 := Nat.and_le_right
  omega

theorem bitCount_eq_zero_iff (w v : Nat) (hlt : v < 2 ^ w) : bitCount w v = 0 ↔ v = 0 := by
  constructor
  · intro h
    by_contra h0
    have := bitCount_pos w v h0 hlt
    omega
  · intro h
    rw [h, bitCount_zero]

theorem countP_le_add {α : Type} (p q r : α → Bool)
    (h : ∀ a, p a = true → q a = true ∨ r a = true) :
    ∀ l : List α, l.countP p ≤ l.countP q + l.countP r := by
  intro l
  induction l with
  | nil => simp
  | cons a l ih =>
    rw [List.countP_cons, List.countP_cons, List.countP_cons]
    have ha := h a
    cases hp : p a <;> cases hq : q a <;> cases hr : r a <;> simp_all <;> omega

theorem bitCount_triangle (w a b c : Nat) :
    bitCount w (a ^^^ c) ≤ bitCount w (a ^^^ b) + bitCount w (b ^^^ c) := by
  unfold bitCount
  apply countP_le_add
  intro i
  simp only [Nat.testBit_xor]
  cases a.testBit i <;> cases b.testBit i <;> cases c.testBit i <;> simp

theorem complement64_testBit (a i : Nat) (ha : a < 2 ^ 64) :
    (complement64 a).testBit i = (decide (i < 64) && !a.testBit i) := by
  have h : complement64 a = 2 ^ 64 - (a + 1) := by
    unfold complement64
    omega
  rw [h, Nat.testBit_two_pow_sub_succ ha]

theorem complement64_lt (a : Nat) : complement64 a < 2 ^ 64 := by
  have : 0 < 2 ^ 64 := Nat.two_pow_pos 64
  unfold complement64
  omega

theorem xor_complement64 (a : Nat) (ha : a < 2 ^ 64) : a ^^^ complement64 a = 2 ^ 64 - 1 := by
  apply Nat.eq_of_testBit_eq
  intro i
  rw [Nat.testBit_xor, complement64_testBit a i ha, Nat.testBit_two_pow_sub_one]
  by_cases hi : i < 64
  · cases a.testBit i <;> simp [hi]
  · have hpow : (2 : Nat) ^ 64 ≤ 2 ^ i := Nat.pow_le_pow_right (by norm_num) (by omega)
    have hbit : a.testBit i = false := Nat.testBit_lt_two_pow (lt_of_lt_of_le ha hpow)
    simp [hi, hbit]

theorem bitCount_all_ones : bitCount 64 (2 ^ 64 - 1) = 64 := by decide

/-! ## The claims, continued -/

/-- C11: for 64-bit unsigned `a` and `b`, `HammingDistance a b` returns a
distance between 0 and 64. -/
theorem HammingDistance_range (fuel a b : Nat)
    (ha : a < 2 ^ 64) (hb : b < 2 ^ 64) (hfuel : 64 ≤ fuel) :
    ∃ d : Int, HammingDistance fuel a b = some d ∧ 0 ≤ d ∧ d ≤ 64 := by
  have hle := bitCount_le 64 (a ^^^ b)
  exact ⟨_, HammingDistance_eq fuel a b ha hb hfuel, by omega, by omega⟩

/-- Witness for C11: the all-ones value against zero, at distance 64. -/
theorem HammingDistance_range_witness :
    ∃ d : Int, HammingDistance 64 18446744073709551615 0 = some d ∧ 0 ≤ d ∧ d ≤ 64 :=
  HammingDistance_range 64 18446744073709551615 0 (by decide) (by decide) (by decide)

/-- C12: for 64-bit unsigned `a` and `b`, `HammingDistance a b` returns, and
it returns 0 exactly when `a = b`. -/
theorem HammingDistance_eq_zero_iff (fuel a b : Nat)
    (ha : a < 2 ^ 64) (hb : b < 2 ^ 64) (hfuel : 64 ≤ fuel) :
    (HammingDistance fuel a b).isSome = true ∧
      (HammingDistance fuel a b = some 0 ↔ a = b) := by
  have hlt : a ^^^ b < 2 ^ 64 := Nat.xor_lt_two_pow ha hb
  rw [HammingDistance_eq fuel a b ha hb hfuel]
  refine ⟨rfl, ?_⟩
  constructor
  · intro h
    have h1 : ((bitCount 64 (a ^^^ b) : Nat) : Int) = 0 := by
      simpa using h
    have h2 : bitCount 64 (a ^^^ b) = 0 := by exact_mod_cast h1
    exact Nat.xor_eq_zero.mp ((bitCount_eq_zero_iff 64 _ hlt).mp h2)
  · intro h
    rw [h, Nat.xor_self, bitCount_zero]
    rfl

/-- Witness for C12: `HammingDistance 42 42 = 0`. -/
theorem HammingDistance_eq_zero_iff_witness :
    HammingDistance 64 42 42 = some 0 :=
  (HammingDistance_eq_zero_iff 64 42 42 (by decide) (by decide) (by decide)).2.mpr rfl

/-- C13: for a 64-bit unsigned `a`, the distance between `a` and its 64-bit
bitwise complement is 64. -/
theorem HammingDistance_complement (fuel a : Nat) (ha : a < 2 ^ 64) (hfuel : 64 ≤ fuel) :
    HammingDistance fuel a (complement64 a) = some 64 := by
  rw [HammingDistance_eq fuel a _ ha (complement64_lt a) hfuel, xor_complement64 a ha,
    bitCount_all_ones]
  rfl

/-- Witness for C13: `a = 171798691`, whose complement is
`18446744073537752924`. -/
theorem HammingDistance_complement_witness :
    complement64 171798691 = 18446744073537752924 ∧
    HammingDistance 64 171798691 18446744073537752924 = some 64 := by
  have h := HammingDistance_complement 64 171798691 (by decide) (by decide)
  have e : complement64 171798691 = 18446744073537752924 := by decide
  rw [e] at h
  exact ⟨e, h⟩

/-- C14: for a non-nil image and a kind in `Average`, `Difference`,
`CompareImages img img kind` returns distance 0 with a nil error, and the
Hamming distance of the hash of the image to itself is 0. -/
theorem CompareImages_same_image {Image : Type} (im : Imaging Image) (fuel : Nat)
    (img : Image) (hash : PerceptualHash)
    (hkind : hash = Average ∨ hash = Difference) (hfuel : 64 ≤ fuel) :
    CompareImages im fuel (some img) (some img) hash = some (0, none) ∧
    HammingDistance fuel (Ahash im (some img)).1 (Ahash im (some img)).1 = some 0 ∧
    HammingDistance fuel (Dhash im (some img)).1 (Dhash im (some img)).1 = some 0 := by
  have hA : HammingDistance fuel (Ahash im (some img)).1 (Ahash im (some img)).1 = some 0 := by
    rw [HammingDistance_eq fuel _ _ (Ahash_lt im _) (Ahash_lt im _) hfuel, Nat.xor_self,
      bitCount_zero]
    rfl
  have hD : HammingDistance fuel (Dhash im (some img)).1 (Dhash im (some img)).1 = some 0 := by
    rw [HammingDistance_eq fuel _ _ (Dhash_lt im _) (Dhash_lt im _) hfuel, Nat.xor_self,
      bitCount_zero]
    rfl
  refine ⟨?_, hA, hD⟩
  rcases hkind with h | h
  · subst h
    rw [CompareImages_Average]
    show compareFinish fuel _ _ none = _
    simp [compareFinish, hA]
  · subst h
    rw [CompareImages_Difference]
    show compareFinish fuel _ _ none = _
    simp [compareFinish, hD]

/-- Witness for C14: the ramp grid under `Average`. -/
theorem CompareImages_same_image_witness :
    CompareImages gridImaging 64 (some rampGrid) (some rampGrid) Average = some (0, none) :=
  (CompareImages_same_image gridImaging 64 rampGrid Average (Or.inl rfl) (by decide)).1

/-- C16: the loop of `HammingDistance` terminates.  One iteration on a
non-zero 64-bit `val` yields a strictly smaller value with exactly one set bit
fewer; on 64-bit inputs the loop finishes exactly when the fuel (one unit per
executed body) reaches the number of set bits of `x XOR y`, which is at most
64, and the returned distance is that number of iterations. -/
theorem HammingDistance_terminates (fuel x y val : Nat)
    (hx : x < 2 ^ 64) (hy : y < 2 ^ 64) (hval : val < 2 ^ 64) (hval0 : val ≠ 0) :
    (val &&& (val - 1) < val ∧ bitCount 64 (val &&& (val - 1)) + 1 = bitCount 64 val) ∧
    bitCount 64 (x ^^^ y) ≤ 64 ∧
    ((HammingDistance fuel x y).isSome = true ↔ bitCount 64 (x ^^^ y) ≤ fuel) ∧
    HammingDistance (bitCount 64 (x ^^^ y)) x y = some (bitCount 64 (x ^^^ y) : Int) := by
  have hlt : x ^^^ y < 2 ^ 64 := Nat.xor_lt_two_pow hx hy
  refine ⟨⟨clear_lowest_lt val hval0, bitCount_clear_lowest 64 val hval0 hval⟩,
    bitCount_le 64 _, ?_, ?_⟩
  · unfold HammingDistance
    simp only []
    constructor
    · intro h
      by_contra hnot
      rw [hammingLoop_none 64 fuel (x ^^^ y) 0 hlt (by omega)] at h
      simp at h
    · intro h
      rw [hammingLoop_eq 64 fuel (x ^^^ y) 0 hlt h]
      rfl
  · unfold HammingDistance
    simp only []
    rw [hammingLoop_eq 64 _ (x ^^^ y) 0 hlt (le_refl _)]
    simp

/-- Witness for C16: `x = 6`, `y = 21` (three differing bits) and the loop
state `val = 12`. -/
theorem HammingDistance_terminates_witness :
    (12 &&& (12 - 1) < 12 ∧ bitCount 64 (12 &&& (12 - 1)) + 1 = bitCount 64 12) ∧
    bitCount 64 (6 ^^^ 21) ≤ 64 ∧
    ((HammingDistance 2 6 21).isSome = true ↔ bitCount 64 (6 ^^^ 21) ≤ 2) ∧
    HammingDistance (bitCount 64 (6 ^^^ 21)) 6 21 = some (bitCount 64 (6 ^^^ 21) : Int) :=
  HammingDistance_terminates 2 6 21 12 (by decide) (by decide) (by decide) (by decide)

/-- C18: `HammingDistance` satisfies the triangle inequality on 64-bit
unsigned integers. -/
theorem HammingDistance_triangle (fuel a b c : Nat)
    (ha : a < 2 ^ 64) (hb : b < 2 ^ 64) (hc : c < 2 ^ 64) (hfuel : 64 ≤ fuel) :
    ∃ dac dab dbc : Int,
      HammingDistance fuel a c = some dac ∧
      HammingDistance fuel a b = some dab ∧
      HammingDistance fuel b c = some dbc ∧
      dac ≤ dab + dbc := by
  refine ⟨_, _, _, HammingDistance_eq fuel a c ha hc hfuel,
    HammingDistance_eq fuel a b ha hb hfuel, HammingDistance_eq fuel b c hb hc hfuel, ?_⟩
  have h := bitCount_triangle 64 a b c
  exact_mod_cast h

/-- Witness for C18: `a = 6`, `b = 21`, `c = 42`. -/
theorem HammingDistance_triangle_witness :
    ∃ dac dab dbc : Int,
      HammingDistance 64 6 42 = some dac ∧
      HammingDistance 64 6 21 = some dab ∧
      HammingDistance 64 21 42 = some dbc ∧
      dac ≤ dab + dbc :=
  HammingDistance_triangle 64 6 21 42 (by decide) (by decide) (by decide) (by decide)

/-! ## Further facts about the hash loops -/

theorem reducedValue_eq {Image : Type} (im : Imaging Image) (img : Image)
    (width height col row : Nat) :
    reducedValue im img width height col row
      = cellValue (im.At (im.ResizeLanczos (im.Grayscale img) width height)) col row := rfl

theorem ahashTotal_cell (At : Nat → Nat → NRGBA) :
    ahashTotal At = ∑ row in Finset.range 8, ∑ col in Finset.range 8, cellValue At col row :=
  ahashTotal_eq At

theorem ahashScan_testBit_all (At : Nat → Nat → NRGBA) (avg i : Nat) :
    (ahashScan At avg).1.testBit i
      = (decide (i < 64) && decide (avg < cellValue At (i % 8) (i / 8))) := by
  rw [ahashScan_eq, (scan_invariant _ 64 (le_refl _)).2.2]
  simp only [sumPixels_eq, cellValue, gt_iff_lt]

theorem dhashScan_testBit_all (At : Nat → Nat → NRGBA) (i : Nat) :
    (dhashScan At).1.testBit i
      = (decide (i < 64) &&
          decide (cellValue At (i % 8 + 1) (i / 8) < cellValue At (i % 8) (i / 8))) := by
  rw [dhashScan_eq, (scan_invariant _ 64 (le_refl _)).2.2]
  simp only [comparePixels, sumPixels_eq, cellValue, gt_iff_lt]
  congr 1

/-- The `Dhash` loop only looks at the order of horizontally adjacent cells. -/
theorem dhashScan_strictMono (At At2 : Nat → Nat → NRGBA) (f : Nat → Nat) (hf : StrictMono f)
    (h : ∀ col < 9, ∀ row < 8, cellValue At2 col row = f (cellValue At col row)) :
    (dhashScan At2).1 = (dhashScan At).1 := by
  apply Nat.eq_of_testBit_eq
  intro i
  rw [dhashScan_testBit_all, dhashScan_testBit_all]
  by_cases hi : i < 64
  · have h1 : i % 8 < 9 := by omega
    have h2 : i % 8 + 1 < 9 := by omega
    have h3 : i / 8 < 8 := by omega
    rw [h _ h1 _ h3, h _ h2 _ h3]
    simp [hi, hf.lt_iff_lt]
  · simp [hi]

/-- The sum of the grid exceeds 64 times the average by less than 64. -/
theorem exists_cell_le_average (At : Nat → Nat → NRGBA) :
    ∃ row col, row < 8 ∧ col < 8 ∧ cellValue At col row ≤ ahashTotal At / 64 := by
  by_contra hnot
  have hall : ∀ row ∈ Finset.range 8, ∀ col ∈ Finset.range 8,
      ahashTotal At / 64 + 1 ≤ cellValue At col row := by
    intro row hrow col hcol
    by_contra hlt
    exact hnot ⟨row, col, Finset.mem_range.mp hrow, Finset.mem_range.mp hcol, by omega⟩
  have hsum : ∑ _row in Finset.range 8, ∑ _col in Finset.range 8, (ahashTotal At / 64 + 1)
      ≤ ∑ row in Finset.range 8, ∑ col in Finset.range 8, cellValue At col row :=
    Finset.sum_le_sum (fun row hrow => Finset.sum_le_sum (fun col hcol => hall row hrow col hcol))
  rw [← ahashTotal_cell] at hsum
  simp only [Finset.sum_const, Finset.card_range, smul_eq_mul] at hsum
  omega

theorem ahashTotal_offset (At At2 : Nat → Nat → NRGBA) (n : Nat)
    (h : ∀ col < 8, ∀ row < 8, cellValue At2 col row = cellValue At col row + n) :
    ahashTotal At2 = ahashTotal At + 64 * n := by
  rw [ahashTotal_cell, ahashTotal_cell]
  have e : ∑ row in Finset.range 8, ∑ col in Finset.range 8, cellValue At2 col row
      = ∑ row in Finset.range 8, ∑ col in Finset.range 8, (cellValue At col row + n) :=
    Finset.sum_congr rfl (fun row hrow => Finset.sum_congr rfl (fun col hcol =>
      h col (Finset.mem_range.mp hcol) row (Finset.mem_range.mp hrow)))
  rw [e]
  simp only [Finset.sum_add_distrib, Finset.sum_const, Finset.card_range, smul_eq_mul]
  omega

/-- Adding the same amount to every reduced value shifts the truncated average
by that amount and leaves every comparison of the `Ahash` loop unchanged. -/
theorem ahash_offset (At At2 : Nat → Nat → NRGBA) (n : Nat)
    (h : ∀ col < 8, ∀ row < 8, cellValue At2 col row = cellValue At col row + n) :
    (ahashScan At2 (ahashTotal At2 / 64)).1 = (ahashScan At (ahashTotal At / 64)).1 := by
  have havg : ahashTotal At2 / 64 = ahashTotal At / 64 + n := by
    rw [ahashTotal_offset At At2 n h]
    omega
  apply Nat.eq_of_testBit_eq
  intro i
  rw [ahashScan_testBit_all, ahashScan_testBit_all, havg]
  by_cases hi : i < 64
  · have h1 : i % 8 < 8 := by omega
    have h3 : i / 8 < 8 := by omega
    rw [h _ h1 _ h3]
    simp [hi]
  · simp [hi]

/-- C15 (counterexample): the value 0 returned together with `ErrNilImage` is
also a legitimate fingerprint: `Ahash` and `Dhash` of the all-black grid
return 0 with a nil error. -/
theorem nil_value_equals_black_fingerprint :
    (Ahash gridImaging none).2 = some Error.ErrNilImage ∧
    (Ahash gridImaging (some blackGrid)).2 = none ∧
    (Ahash gridImaging none).1 = (Ahash gridImaging (some blackGrid)).1 ∧
    (Dhash gridImaging none).2 = some Error.ErrNilImage ∧
    (Dhash gridImaging (some blackGrid)).2 = none ∧
    (Dhash gridImaging none).1 = (Dhash gridImaging (some blackGrid)).1 := by
  decide

/-- C15 (amended): the result of `Ahash` and `Dhash` for a nil image is the
value 0 together with `ErrNilImage`; it differs from the result for every
non-nil image, whose error is nil, so the two are told apart by the error
component. -/
theorem nil_result_distinguished_by_error {Image : Type} (im : Imaging Image) (img : Image) :
    Ahash im none = (0, some Error.ErrNilImage) ∧
    Dhash im none = (0, some Error.ErrNilImage) ∧
    (Ahash im (some img)).2 = none ∧
    (Dhash im (some img)).2 = none ∧
    Ahash im none ≠ Ahash im (some img) ∧
    Dhash im none ≠ Dhash im (some img) := by
  refine ⟨rfl, rfl, rfl, rfl, ?_, ?_⟩
  · intro h
    have h2 := congrArg Prod.snd h
    simp [Ahash] at h2
  · intro h
    have h2 := congrArg Prod.snd h
    simp [Dhash] at h2

/-- C17: if the reduced value of every cell of the 9×8 grid of `img2` is the
image under a strictly increasing function `f` of the reduced value of the same
cell of the grid of `img1`, then `Dhash` returns the same fingerprint for both
images. -/
theorem Dhash_monotone_invariant {Image : Type} (im : Imaging Image) (img1 img2 : Image)
    (f : Nat → Nat) (hf : StrictMono f)
    (hcells : ∀ col < 9, ∀ row < 8,
      reducedValue im img2 9 8 col row = f (reducedValue im img1 9 8 col row)) :
    Dhash im (some img2) = Dhash im (some img1) := by
  rw [Dhash_some, Dhash_some, dhashScan_strictMono _ _ f hf hcells]

/-- Witness for C17: the zigzag grid and its copy brightened by 15 gray
levels, that is by 45 in reduced value. -/
theorem Dhash_monotone_invariant_witness :
    Dhash gridImaging (some brightZigzagGrid) = Dhash gridImaging (some zigzagGrid) :=
  Dhash_monotone_invariant gridImaging zigzagGrid brightZigzagGrid (fun n => n + 45)
    (fun _ _ hab => Nat.add_lt_add_right hab 45) (by decide)

/-- C19: the `Ahash` fingerprint of a non-nil image is never `2 ^ 64 - 1`: some
cell has bit 0, every cell whose reduced value is minimal is not above the
truncated average and has bit 0, and a grid whose 64 reduced values are all
equal hashes to 0. -/
theorem Ahash_has_zero_bit {Image : Type} (im : Imaging Image) (img : Image) :
    (Ahash im (some img)).1 ≠ 2 ^ 64 - 1 ∧
    (∃ row col, row < 8 ∧ col < 8 ∧
      (Ahash im (some img)).1.testBit (row * 8 + col) = false) ∧
    (∀ row < 8, ∀ col < 8,
      (∀ r < 8, ∀ c < 8, reducedValue im img 8 8 col row ≤ reducedValue im img 8 8 c r) →
      reducedValue im img 8 8 col row ≤ floorAverage im img ∧
      (Ahash im (some img)).1.testBit (row * 8 + col) = false) ∧
    ((∀ row < 8, ∀ col < 8,
        reducedValue im img 8 8 col row = reducedValue im img 8 8 0 0) →
      (Ahash im (some img)).1 = 0) := by
  have hbit : ∀ row col, row < 8 → col < 8 →
      ((Ahash im (some img)).1.testBit (row * 8 + col) = true ↔
        floorAverage im img < reducedValue im img 8 8 col row) := by
    intro row col hrow hcol
    rw [Ahash_some]
    simp only []
    rw [ahashScan_testBit _ _ row col hrow hcol, ahashTotal_eq]
    rfl
  have havg : floorAverage im img
      = ahashTotal (im.At (im.ResizeLanczos (im.Grayscale img) 8 8)) / 64 := by
    rw [ahashTotal_eq]
    rfl
  obtain ⟨row0, col0, hrow0, hcol0, hle0⟩ :=
    exists_cell_le_average (im.At (im.ResizeLanczos (im.Grayscale img) 8 8))
  rw [← havg, ← reducedValue_eq] at hle0
  have hfalse0 : (Ahash im (some img)).1.testBit (row0 * 8 + col0) = false := by
    cases hb : (Ahash im (some img)).1.testBit (row0 * 8 + col0) with
    | false => rfl
    | true =>
      have := (hbit row0 col0 hrow0 hcol0).mp hb
      omega
  have hmin : ∀ row < 8, ∀ col < 8,
      (∀ r < 8, ∀ c < 8, reducedValue im img 8 8 col row ≤ reducedValue im img 8 8 c r) →
      reducedValue im img 8 8 col row ≤ floorAverage im img ∧
      (Ahash im (some img)).1.testBit (row * 8 + col) = false := by
    intro row hrow col hcol hall
    have hle : reducedValue im img 8 8 col row ≤ floorAverage im img :=
      le_trans (hall row0 hrow0 col0 hcol0) hle0
    refine ⟨hle, ?_⟩
    cases hb : (Ahash im (some img)).1.testBit (row * 8 + col) with
    | false => rfl
    | true =>
      have := (hbit row col hrow hcol).mp hb
      omega
  refine ⟨?_, ⟨row0, col0, hrow0, hcol0, hfalse0⟩, hmin, ?_⟩
  · intro h
    rw [h, Nat.testBit_two_pow_sub_one] at hfalse0
    have : row0 * 8 + col0 < 64 := by omega
    simp [this] at hfalse0
  · intro hunif
    apply Nat.eq_of_testBit_eq
    intro i
    rw [Nat.zero_testBit]
    by_cases hi : i < 64
    · have h1 : i % 8 < 8 := by omega
      have h3 : i / 8 < 8 := by omega
      have hidx : i / 8 * 8 + i % 8 = i := by omega
      have hcell := (hmin (i / 8) h3 (i % 8) h1 (fun r hr c hc => by
        rw [hunif _ h3 _ h1, hunif r hr c hc])).2
      rw [hidx] at hcell
      exact hcell
    · have hpow : (2 : Nat) ^ 64 ≤ 2 ^ i := Nat.pow_le_pow_right (by norm_num) (by omega)
      exact Nat.testBit_lt_two_pow (lt_of_lt_of_le (Ahash_lt im _) hpow)

/-- Witness for C19: the black grid hashes to 0, and the darkest cell `(0, 0)`
of the ramp grid has bit 0. -/
theorem Ahash_has_zero_bit_witness :
    (Ahash gridImaging (some blackGrid)).1 = 0 ∧
    (Ahash gridImaging (some rampGrid)).1.testBit (0 * 8 + 0) = false :=
  ⟨(Ahash_has_zero_bit gridImaging blackGrid).2.2.2 (fun _ _ _ _ => rfl),
    ((Ahash_has_zero_bit gridImaging rampGrid).2.2.1 0 (by decide) 0 (by decide)
      (by decide)).2⟩

/-- C20: if the reduced value of every cell of the 8×8 grid of `img2` equals
the reduced value of the same cell of the grid of `img1` plus an integer `k`,
then `Ahash` returns the same fingerprint for both images. -/
theorem Ahash_offset_invariant {Image : Type} (im : Imaging Image) (img1 img2 : Image)
    (k : Int)
    (hcells : ∀ col < 8, ∀ row < 8,
      (reducedValue im img2 8 8 col row : Int) = (reducedValue im img1 8 8 col row : Int) + k) :
    Ahash im (some img2) = Ahash im (some img1) := by
  have key : (ahashScan (im.At (im.ResizeLanczos (im.Grayscale img2) 8 8))
        (ahashTotal (im.At (im.ResizeLanczos (im.Grayscale img2) 8 8)) / 64)).1
      = (ahashScan (im.At (im.ResizeLanczos (im.Grayscale img1) 8 8))
        (ahashTotal (im.At (im.ResizeLanczos (im.Grayscale img1) 8 8)) / 64)).1 := by
    by_cases hk : 0 ≤ k
    · apply ahash_offset _ _ k.toNat
      intro col hcol row hrow
      have h := hcells col hcol row hrow
      simp only [reducedValue_eq] at h
      omega
    · symm
      apply ahash_offset _ _ (-k).toNat
      intro col hcol row hrow
      have h := hcells col hcol row hrow
      simp only [reducedValue_eq] at h
      omega
  rw [Ahash_some, Ahash_some, key]

/-- Witness for C20: the ramp grid is the brightened ramp grid with every
reduced value lowered by 15. -/
theorem Ahash_offset_invariant_witness :
    Ahash gridImaging (some rampGrid) = Ahash gridImaging (some brightRampGrid) :=
  Ahash_offset_invariant gridImaging brightRampGrid rampGrid (-15) (by decide)

end Perceptive
